import Mathlib

/-
Verification of the transform library in src/deeplearning/data_augmentation.py.

The module is a flat set of numpy transforms on an M-by-N time-series matrix.
We embed each transform shallowly:
  - a matrix is a list of rows, each row a list of rationals (reals for the
    rotation transform, whose correctness property is about real arithmetic);
  - every call to the pseudo-random generator is replaced by an explicit
    "random tape" argument holding the drawn values, with np.random.normal
    modelled by its location-scale form mean + sigma * z for a tape value z;
  - a numpy error (IndexError from out-of-range indexing, NameError from an
    unresolved global, ValueError from shape mismatch) is an Except.error;
  - scipy.interpolate.CubicSpline is a black-box interpolation routine:
    the embedding takes the spline evaluator as a function argument CS, and
    properties that depend on it only use the fact that a spline interpolates
    its control points (captured by the decidable predicate InterpolatesOn).
-/

namespace DataAug

inductive PyError : Type where
  | indexError : PyError
  | nameError : PyError
  | valueError : PyError
deriving DecidableEq, Repr

/-- A numpy 2-d array, as a list of rows. -/
abbrev Mat (α : Type) : Type := List (List α)

/-- X.shape[0] : the number of rows. -/
def shape0 (X : Mat ℚ) : ℕ := X.length

/-- X.shape[1] : the row length of a (nonempty, rectangular) matrix. -/
def shape1 {α : Type} (X : Mat α) : ℕ := (X.headD []).length

/-- The matrix has shape (M, N): M rows, every row of length N. -/
def isMat {α : Type} (M N : ℕ) (X : Mat α) : Prop :=
  X.length = M ∧ ∀ r ∈ X, r.length = N

instance {α : Type} (M N : ℕ) (X : Mat α) : Decidable (isMat M N X) := by
  unfold isMat; infer_instance

/-- Entry X[i][j], with default 0 out of range. -/
def entry (X : Mat ℚ) (i j : ℕ) : ℚ := (X.getD i []).getD j 0

/-- Whether an Except carries a value rather than an error. -/
def isOkE {ε α : Type} : Except ε α → Bool
  | .ok _ => true
  | .error _ => false

instance {ε α : Type} [DecidableEq ε] [DecidableEq α] :
    DecidableEq (Except ε α) := fun a b =>
  match a, b with
  | .ok x, .ok y =>
    if h : x = y then isTrue (by rw [h])
    else isFalse (by intro hc; cases hc; exact h rfl)
  | .error e, .error f =>
    if h : e = f then isTrue (by rw [h])
    else isFalse (by intro hc; cases hc; exact h rfl)
  | .ok _, .error _ => isFalse (by intro hc; cases hc)
  | .error _, .ok _ => isFalse (by intro hc; cases hc)

/-- Map with the element index, starting from index k. -/
def idxMap {α β : Type} (f : ℕ → α → β) : ℕ → List α → List β
  | _, [] => []
  | k, a :: t => f k a :: idxMap f (k + 1) t

/-- Location-scale model of one draw of np.random.normal(loc, scale): the
drawn value is loc + scale * z where z is the standard-normal tape value. -/
def normal (μ σ z : ℚ) : ℚ := μ + σ * z

/-- Column access A[:, j]: numpy raises IndexError when j is out of range
(some row is too short); otherwise the column is returned. -/
def getCol {α : Type} : Mat α → ℕ → Except PyError (List α)
  | [], _ => Except.ok []
  | r :: t, j =>
    match r.get? j with
    | some v => do
      let vs ← getCol t j
      return v :: vs
    | none => Except.error PyError.indexError

/-- Insert into a sorted list, keeping it sorted. -/
def insertSorted (a : ℕ) : List ℕ → List ℕ
  | [] => [a]
  | b :: t => if a ≤ b then a :: b :: t else b :: insertSorted a t

/-- np.sort on a 1-d integer array: the sorted permutation of the input
(insertion sort; np.sort is extensionally this function). -/
def npsort : List ℕ → List ℕ
  | [] => []
  | a :: t => insertSorted a (npsort t)

/-- np.cumsum on a 1-d array: the running sums. -/
def cumsum (l : List ℚ) : List ℚ := (l.scanl (· + ·) 0).tail

/-- np.interp(x, xp, fp): piecewise-linear interpolation with boundary
clamping (x below xp[0] gives fp[0], x at or above the last xp gives the
last fp). xp is assumed nondecreasing, as numpy does. -/
def interpAt (x : ℚ) : List ℚ → List ℚ → ℚ
  | x0 :: x1 :: xs, y0 :: y1 :: ys =>
    if x ≤ x0 then y0
    else if x < x1 then y0 + (x - x0) * (y1 - y0) / (x1 - x0)
    else interpAt x (x1 :: xs) (y1 :: ys)
  | [_], [y0] => y0
  | _, _ => 0

/-- Number of elements of np.arange(0, stop, step). -/
def arangeCount (stop step : ℚ) : ℕ := (⌈stop / step⌉).toNat

/-- np.arange(0, stop, step) for a rational step. -/
def arangeQ (stop step : ℚ) : List ℚ :=
  (List.range (arangeCount stop step)).map fun (k : ℕ) => (k : ℚ) * step

/-- jitter(X, sigma): X plus elementwise Gaussian noise drawn with
np.random.normal(0, sigma, X.shape); z is the standard-normal tape. -/
def jitter (X : Mat ℚ) (σ : ℚ) (z : ℕ → ℕ → ℚ) : Mat ℚ :=
  idxMap (fun i r => idxMap (fun j v => v + normal 0 σ (z i j)) 0 r) 0 X

/-- scaling(X, sigma): one factor per channel drawn with
np.random.normal(1, sigma, (1, N)), broadcast down the rows by
matmul with ones((M,1)), then multiplied elementwise into X. -/
def scaling (X : Mat ℚ) (σ : ℚ) (z : ℕ → ℚ) : Mat ℚ :=
  idxMap (fun _ r => idxMap (fun j v => v * normal 1 σ (z j)) 0 r) 0 X

/-- The knot x-locations arange(0, M, (M-1)/(knot+1)) of the curve
generator. -/
def knotXs (M knot : ℕ) : List ℚ :=
  arangeQ (M : ℚ) (((M : ℚ) - 1) / ((knot : ℚ) + 1))

/-- The curve generator's xx array: the transpose of
ones((N,1)) * arange(0, M, (M-1)/(knot+1)); each row is a constant list
of length N. -/
def xxMat (M knot N : ℕ) : Mat ℚ := (knotXs M knot).map (List.replicate N)

/-- The curve generator's yy array of knot y-draws,
np.random.normal(1, sigma, (knot+2, N)). -/
def yyMat (N knot : ℕ) (σ : ℚ) (zy : ℕ → ℕ → ℚ) : Mat ℚ :=
  (List.range (knot + 2)).map fun i =>
    (List.range N).map fun j => normal 1 σ (zy i j)

/-- Validation performed by the scipy CubicSpline constructor on its
arguments: it raises ValueError unless the x and y arrays have equal
length. (scipy also requires strictly increasing x, which every arange
the program passes satisfies, since the arange step is positive.) The
lengths differ exactly when arange yields a number of x-locations other
than the knot+2 y-draws, e.g. for 2 ≤ M ≤ knot+1. -/
def cubicSplineCheck (x y : List ℚ) : Except PyError Unit :=
  if x.length = y.length then Except.ok ()
  else Except.error PyError.valueError

/-- generate_random_curves(X, sigma, knot). The code reads columns 0, 1
and 2 of xx and yy and builds one CubicSpline per channel (in the source
order: xx column, yy column, then the constructor's validation), so fewer
than three channels raises IndexError at a missing column, and mismatched
knot counts raise ValueError inside CubicSpline. CS is the cubic-spline
evaluator: CS xs ys x evaluates the spline fitted through the points
(xs, ys) at x. -/
def generate_random_curves (CS : List ℚ → List ℚ → ℚ → ℚ) (X : Mat ℚ)
    (σ : ℚ) (knot : ℕ) (zy : ℕ → ℕ → ℚ) : Except PyError (Mat ℚ) := do
  let xx0 ← getCol (xxMat X.length knot (shape1 X)) 0
  let yy0 ← getCol (yyMat (shape1 X) knot σ zy) 0
  let _ ← cubicSplineCheck xx0 yy0
  let xx1 ← getCol (xxMat X.length knot (shape1 X)) 1
  let yy1 ← getCol (yyMat (shape1 X) knot σ zy) 1
  let _ ← cubicSplineCheck xx1 yy1
  let xx2 ← getCol (xxMat X.length knot (shape1 X)) 2
  let yy2 ← getCol (yyMat (shape1 X) knot σ zy) 2
  let _ ← cubicSplineCheck xx2 yy2
  return (List.range X.length).map fun (t : ℕ) =>
    [CS xx0 yy0 (t : ℚ), CS xx1 yy1 (t : ℚ), CS xx2 yy2 (t : ℚ)]

/-- Elementwise product of two arrays; numpy raises on a shape mismatch
that broadcasting cannot fix (the only broadcast case reachable from
magnitude_warp, N = 1, is cut off earlier by the curve generator). -/
def elemMul (A B : Mat ℚ) : Except PyError (Mat ℚ) :=
  if A.map List.length = B.map List.length then
    Except.ok (List.zipWith (fun r s => List.zipWith (· * ·) r s) A B)
  else Except.error PyError.valueError

/-- magnitude_warp(X, sigma): X times a random curve, elementwise. -/
def magnitude_warp (CS : List ℚ → List ℚ → ℚ → ℚ) (X : Mat ℚ)
    (σ : ℚ) (knot : ℕ) (zy : ℕ → ℕ → ℚ) : Except PyError (Mat ℚ) := do
  let c ← generate_random_curves CS X σ knot zy
  elemMul X c

/-- The global names defined at top level of data_augmentation.py
(its own functions and imports). -/
def moduleGlobals : List String :=
  ["np", "CubicSpline", "axangle2mat",
   "jitter", "scaling", "generate_random_curves", "magnitude_warp",
   "distort_timesteps", "time_warp", "rotation", "permutation",
   "rand_sample_timesteps", "rand_sampling"]

/-- Python resolution of a global name at call time: NameError when the
name is not defined in the module. -/
def resolveGlobal (name : String) : Except PyError Unit :=
  if name ∈ moduleGlobals then Except.ok () else Except.error PyError.nameError

/-- The computation distort_timesteps evidently intends (and that the body
after the curve-generator call performs): cumulative sums of the random
curve's columns, each rescaled so that its last value is M - 1. -/
def distort_timesteps_model (CS : List ℚ → List ℚ → ℚ → ℚ) (X : Mat ℚ)
    (σ : ℚ) (knot : ℕ) (zy : ℕ → ℕ → ℚ) : Except PyError (Mat ℚ) := do
  let tt ← generate_random_curves CS X σ knot zy
  let M := X.length
  let c0 ← getCol tt 0
  let c1 ← getCol tt 1
  let c2 ← getCol tt 2
  let f := fun (c : List ℚ) =>
    let cs := cumsum c
    let sc := ((M : ℚ) - 1) / (cs.getLast?.getD 0)
    cs.map (· * sc)
  return (List.range M).map fun t =>
    [(f c0).getD t 0, (f c1).getD t 0, (f c2).getD t 0]

/-- distort_timesteps(X, sigma): the source calls GenerateRandomCurves,
a global that the module never defines (the curve generator is named
generate_random_curves), so the call raises NameError before any of the
remaining lines run. -/
def distort_timesteps (CS : List ℚ → List ℚ → ℚ → ℚ) (X : Mat ℚ)
    (σ : ℚ) (knot : ℕ) (zy : ℕ → ℕ → ℚ) : Except PyError (Mat ℚ) := do
  let _ ← resolveGlobal "GenerateRandomCurves"
  distort_timesteps_model CS X σ knot zy

/-- time_warp(X, sigma): interpolate each channel of X at the distorted
timesteps. -/
def time_warp (CS : List ℚ → List ℚ → ℚ → ℚ) (X : Mat ℚ)
    (σ : ℚ) (knot : ℕ) (zy : ℕ → ℕ → ℚ) : Except PyError (Mat ℚ) := do
  let tt ← distort_timesteps CS X σ knot zy
  let M := X.length
  let t0 ← getCol tt 0
  let t1 ← getCol tt 1
  let t2 ← getCol tt 2
  let col := fun (tc : List ℚ) (j : ℕ) =>
    (List.range M).map fun (t : ℕ) =>
      interpAt (t : ℚ) tc (X.map fun r => r.getD j 0)
  return (List.range M).map fun i =>
    [(col t0 0).getD i 0, (col t1 1).getD i 0, (col t2 2).getD i 0]

/-- One row of np.matmul(X, axangle2mat(axis, angle)) for a unit-normalized
axis (x, y, z): the row 3-vector times the Rodrigues rotation matrix
  [[x*x*C+c, x*y*C-z*s, z*x*C+y*s],
   [x*y*C+z*s, y*y*C+c, y*z*C-x*s],
   [z*x*C-y*s, y*z*C+x*s, z*z*C+c]]
with c = cos angle, s = sin angle, C = 1 - c (transforms3d axangle2mat). -/
noncomputable def rotRow (u1 u2 u3 θ : ℝ) (r : List ℝ) : List ℝ :=
  let n := Real.sqrt (u1 ^ 2 + u2 ^ 2 + u3 ^ 2)
  let x := u1 / n
  let y := u2 / n
  let z := u3 / n
  let c := Real.cos θ
  let s := Real.sin θ
  let C := 1 - c
  match r with
  | [a, b, d] =>
    [a * (x * x * C + c) + b * (x * y * C + z * s) + d * (z * x * C - y * s),
     a * (x * y * C - z * s) + b * (y * y * C + c) + d * (y * z * C + x * s),
     a * (z * x * C + y * s) + b * (y * z * C - x * s) + d * (z * z * C + c)]
  | _ => []

/-- rotation(X): axangle2mat unpacks the drawn axis into three components
(ValueError when the axis has any other length, i.e. when N is not 3), and
np.matmul(X, mat) requires every row of X to be a 3-vector. The drawn axis
components and angle are the random-tape arguments. -/
noncomputable def rotation (X : Mat ℝ) (axis : List ℝ) (θ : ℝ) :
    Except PyError (Mat ℝ) :=
  match axis with
  | [u1, u2, u3] =>
    if X.all (fun r => r.length == 3) then
      Except.ok (X.map (rotRow u1 u2 u3 θ))
    else Except.error PyError.valueError
  | _ => Except.error PyError.valueError

/-- The segment boundary array of one retry-loop iteration of permutation:
segs[0] = 0, segs[1:-1] = np.sort(draw), segs[-1] = M. -/
def mkSegs (M : ℕ) (draw : List ℕ) : List ℕ :=
  0 :: (npsort draw ++ [M])

/-- The loop guard: np.min(segs[1:] - segs[:-1]) > minSegLength, i.e. every
consecutive difference exceeds minSegLength. -/
def validSegs (minSegLength : ℕ) (segs : List ℕ) : Bool :=
  (segs.zip segs.tail).all fun p => minSegLength < p.2 - p.1

/-- The retry loop of permutation, with an explicit fuel bound: iteration i
draws the cut points "draws i" (each draw models
np.random.randint(minSegLength, M - minSegLength, nPerm - 1)) and exits
with the segment array once validSegs holds. The source loop is unbounded
(while bWhile == True); a result of none for every fuel value means the
source loops forever. -/
def segSearch (M minSegLength : ℕ) (draws : ℕ → List ℕ) :
    ℕ → ℕ → Option (List ℕ)
  | _, 0 => none
  | i, fuel + 1 =>
    let segs := mkSegs M (draws i)
    if validSegs minSegLength segs then some segs
    else segSearch M minSegLength draws (i + 1) fuel

/-- permutation(X, nPerm, minSegLength): idx is the drawn
np.random.permutation(nPerm); once the retry loop finds valid segment
boundaries, the slices X[segs[idx[ii]] : segs[idx[ii]+1], :] are written
consecutively from row 0 into zeros(X.shape), which is the concatenation
of those slices followed by whatever zero rows were never overwritten. -/
def permutation (X : Mat ℚ) (nPerm minSegLength : ℕ) (idx : List ℕ)
    (draws : ℕ → List ℕ) (fuel : ℕ) : Option (Mat ℚ) :=
  match segSearch X.length minSegLength draws 0 fuel with
  | none => none
  | some segs =>
    let body :=
      (idx.map fun k => ((X.drop (segs.getD k 0)).take
        (segs.getD (k + 1) 0 - segs.getD k 0))).flatten
    some (body ++ (X.map fun r => r.map fun _ => (0 : ℚ)).drop body.length)

/-- Column j of the tt array of rand_sample_timesteps: tt starts as
zeros((nSample, N), int), columns 0, 1, 2 get sorted random interior
indices in rows 1..nSample-2, and the whole last row is set to M - 1. -/
def ttcol (M nSample : ℕ) (draws : ℕ → List ℕ) (j : ℕ) : List ℕ :=
  if j < 3 then 0 :: (npsort (draws j) ++ [M - 1])
  else List.replicate (nSample - 1) 0 ++ [M - 1]

/-- The tt array of rand_sample_timesteps, column-wise: the list of the N
columns of tt. -/
def ttMat (M N nSample : ℕ) (draws : ℕ → List ℕ) : Mat ℕ :=
  (List.range N).map fun j => ttcol M nSample draws j

/-- Validation performed by np.random.randint(1, M - 1, nSample - 2):
ValueError when the range [1, M-1) is empty (low ≥ high, i.e. M ≤ 2) or
the requested size nSample - 2 is negative (nSample < 2). The drawn
values themselves come from the tape. -/
def randintCheck (M nSample : ℕ) : Except PyError Unit :=
  if M ≤ 2 ∨ nSample < 2 then Except.error PyError.valueError
  else Except.ok ()

/-- Assignment into column j of the tt array, tt[1:-1, j] = ...: raises
IndexError when column j does not exist (j ≥ N). -/
def colAssignCheck (N j : ℕ) : Except PyError Unit :=
  if j < N then Except.ok () else Except.error PyError.indexError

/-- rand_sample_timesteps(X, nSample), returned column-wise (the list of
columns of tt). Lines 90-92 each evaluate a randint draw first (its
validation can raise ValueError) and then assign it into a tt column
(IndexError when the column does not exist, e.g. tt[1:-1, 2] for N < 3).
Each "draws j" models np.random.randint(1, M - 1, nSample - 2). -/
def rand_sample_timesteps (M N nSample : ℕ) (draws : ℕ → List ℕ) :
    Except PyError (Mat ℕ) := do
  let _ ← randintCheck M nSample
  let _ ← colAssignCheck N 0
  let _ ← randintCheck M nSample
  let _ ← colAssignCheck N 1
  let _ ← randintCheck M nSample
  let _ ← colAssignCheck N 2
  return ttMat M N nSample draws

/-- Channel j of the rand_sampling output: np.interp of the grid 0..M-1
against the sampled indices tt[:, j] and the signal values X[tt[:, j], j]. -/
def rsCol (X : Mat ℚ) (tt : Mat ℕ) (j : ℕ) : List ℚ :=
  (List.range X.length).map fun (t : ℕ) =>
    interpAt (t : ℚ) ((tt.getD j []).map fun (s : ℕ) => (s : ℚ))
      ((tt.getD j []).map fun s => entry X s j)

/-- rand_sampling(X, nSample): each of the channels 0, 1, 2 is rebuilt by
interpolating X at its sampled indices back onto the grid 0..M-1; columns
beyond 2 of the zeros(X.shape) output are never written and stay 0. -/
def rand_sampling (X : Mat ℚ) (nSample : ℕ) (draws : ℕ → List ℕ) :
    Except PyError (Mat ℚ) := do
  let ttc ← rand_sample_timesteps X.length (shape1 X) nSample draws
  return (List.range X.length).map fun i =>
    (List.range (shape1 X)).map fun j =>
      if j < 3 then (rsCol X ttc j).getD i 0 else 0

/-- np.interp itself, viewed as one possible spline evaluator: it
interpolates its control points, which is the only property of
scipy's CubicSpline that any theorem here relies on. -/
def npCS (xs ys : List ℚ) (x : ℚ) : ℚ := interpAt x xs ys

/-- CS interpolates the control points (xs, ys): evaluating at the i-th
control x-location returns the i-th control y-value. scipy's CubicSpline
satisfies this for strictly increasing xs. -/
def InterpolatesOn (CS : List ℚ → List ℚ → ℚ → ℚ) (xs ys : List ℚ) : Prop :=
  ∀ i < xs.length, CS xs ys (xs.getD i 0) = ys.getD i 0

instance (CS : List ℚ → List ℚ → ℚ → ℚ) (xs ys : List ℚ) :
    Decidable (InterpolatesOn CS xs ys) := by
  unfold InterpolatesOn; infer_instance

/-! ### Basic lemmas about the embedding's list plumbing -/

theorem length_idxMap {α β : Type} (f : ℕ → α → β) :
    ∀ (k : ℕ) (l : List α), (idxMap f k l).length = l.length := by
  intro k l
  induction l generalizing k with
  | nil => rfl
  | cons a t ih => simp [idxMap, ih]

theorem idxMap_get? {α β : Type} (f : ℕ → α → β) :
    ∀ (k : ℕ) (l : List α) (n : ℕ),
      (idxMap f k l).get? n = (l.get? n).map (f (k + n)) := by
  intro k l
  induction l generalizing k with
  | nil => intro n; rfl
  | cons a t ih =>
    intro n
    cases n with
    | zero => rfl
    | succ m =>
      have h1 : k + 1 + m = k + (m + 1) := by omega
      simp only [idxMap, List.get?_cons_succ, ih (k + 1) m, h1]

theorem idxMap_eq_self {α : Type} (f : ℕ → α → α)
    (hf : ∀ i a, f i a = a) : ∀ (k : ℕ) (l : List α), idxMap f k l = l := by
  intro k l
  induction l generalizing k with
  | nil => rfl
  | cons a t ih => simp [idxMap, hf, ih]

theorem mem_idxMap {α β : Type} {f : ℕ → α → β} :
    ∀ {k : ℕ} {l : List α} {b : β}, b ∈ idxMap f k l →
      ∃ i a, a ∈ l ∧ b = f i a := by
  intro k l
  induction l generalizing k with
  | nil => intro b h; simp [idxMap] at h
  | cons a t ih =>
    intro b h
    simp only [idxMap, List.mem_cons] at h
    rcases h with h | h
    · exact ⟨k, a, List.mem_cons_self a t, h⟩
    · obtain ⟨i, c, hc, hb⟩ := ih h
      exact ⟨i, c, List.mem_cons_of_mem a hc, hb⟩

theorem getD_eq_of_get? {α : Type} {l : List α} {n : ℕ} {v d : α}
    (h : l.get? n = some v) : l.getD n d = v := by
  rw [List.getD_eq_getD_get?, h]; rfl

theorem getD_eq_default_of_le {α : Type} {l : List α} {n : ℕ} (d : α)
    (h : l.length ≤ n) : l.getD n d = d := by
  rw [List.getD_eq_getD_get?, List.get?_eq_none.2 h]; rfl

theorem isMat_idxMap {α : Type} {M N : ℕ} {X : Mat α}
    (f : ℕ → List α → List α) (hf : ∀ i r, (f i r).length = r.length)
    (hX : isMat M N X) : ∀ k, isMat M N (idxMap f k X) := by
  intro k
  constructor
  · rw [length_idxMap]; exact hX.1
  · intro r hr
    obtain ⟨i, a, ha, hfa⟩ := mem_idxMap hr
    rw [hfa, hf]
    exact hX.2 a ha

/-! ### npsort: it sorts, and it is a permutation of its input -/

theorem insertSorted_perm (a : ℕ) :
    ∀ l : List ℕ, List.Perm (insertSorted a l) (a :: l) := by
  intro l
  induction l with
  | nil => exact List.Perm.refl _
  | cons b t ih =>
    by_cases h : a ≤ b
    · simp [insertSorted, h]
    · simp only [insertSorted, if_neg h]
      exact (ih.cons b).trans (List.Perm.swap a b t)

theorem npsort_perm : ∀ l : List ℕ, List.Perm (npsort l) l := by
  intro l
  induction l with
  | nil => exact List.Perm.refl _
  | cons a t ih => exact (insertSorted_perm a (npsort t)).trans (ih.cons a)

theorem insertSorted_chain (a : ℕ) :
    ∀ l : List ℕ, List.Chain' (· ≤ ·) l →
      List.Chain' (· ≤ ·) (insertSorted a l) := by
  intro l
  induction l with
  | nil => intro _; simp [insertSorted]
  | cons b t ih =>
    intro hc
    by_cases h : a ≤ b
    · simpa [insertSorted, h] using hc
    · simp only [insertSorted, if_neg h]
      have hbt := (List.chain'_cons'.1 hc).2
      have hrec := ih hbt
      rw [List.chain'_cons']
      refine ⟨?_, hrec⟩
      intro y hy
      cases t with
      | nil =>
        simp [insertSorted] at hy
        omega
      | cons c t2 =>
        have hbc : b ≤ c := (List.chain'_cons.1 hc).1
        by_cases h2 : a ≤ c
        · simp [insertSorted, h2] at hy
          omega
        · simp [insertSorted, if_neg h2] at hy
          omega

theorem npsort_chain : ∀ l : List ℕ, List.Chain' (· ≤ ·) (npsort l) := by
  intro l
  induction l with
  | nil => simp [npsort]
  | cons a t ih => exact insertSorted_chain a (npsort t) ih

theorem mem_npsort {a : ℕ} {l : List ℕ} : a ∈ npsort l ↔ a ∈ l :=
  (npsort_perm l).mem_iff

theorem length_npsort (l : List ℕ) : (npsort l).length = l.length :=
  (npsort_perm l).length_eq

/-! ### getCol -/

theorem getCol_ok {α : Type} (d : α) :
    ∀ (A : Mat α) (j : ℕ), (∀ r ∈ A, j < r.length) →
      getCol A j = Except.ok (A.map fun r => r.getD j d) := by
  intro A
  induction A with
  | nil => intro j _; rfl
  | cons r t ih =>
    intro j h
    have hr : j < r.length := h r (List.mem_cons_self r t)
    have hv : r.get? j = some (r.getD j d) := by
      rw [List.getD_eq_getElem r d hr, List.get?_eq_getElem?,
        List.getElem?_eq_getElem hr]
    simp only [getCol, hv, ih j fun s hs => h s (List.mem_cons_of_mem r hs)]
    rfl

theorem getCol_error {α : Type} :
    ∀ (A : Mat α) (j : ℕ), A ≠ [] → (A.headD []).length ≤ j →
      getCol A j = Except.error PyError.indexError := by
  intro A j hne hlen
  cases A with
  | nil => exact absurd rfl hne
  | cons r t =>
    have h0 : r[j]? = none := List.getElem?_eq_none (by simpa using hlen)
    simp [getCol, h0]

theorem mem_of_getCol_ok {α : Type} :
    ∀ {A : Mat α} {j : ℕ} {c : List α}, getCol A j = Except.ok c →
      ∀ v ∈ c, ∃ r ∈ A, v ∈ r := by
  intro A
  induction A with
  | nil =>
    intro j c hc v hv
    simp only [getCol] at hc
    cases hc
    simp at hv
  | cons r t ih =>
    intro j c hc v hv
    simp only [getCol] at hc
    cases hget : r.get? j with
    | none => rw [hget] at hc; cases hc
    | some w =>
      rw [hget] at hc
      cases hrest : getCol t j with
      | error e => rw [hrest] at hc; cases hc
      | ok vs =>
        rw [hrest] at hc
        simp only [Except.bind, pure, Except.pure] at hc
        cases hc
        rcases List.mem_cons.1 hv with hv | hv
        · exact ⟨r, List.mem_cons_self r t,
            hv ▸ List.get?_mem hget⟩
        · obtain ⟨s, hs, hvs⟩ := ih hrest v hv
          exact ⟨s, List.mem_cons_of_mem r hs, hvs⟩

/-! ### Segment boundary arrays: order, length, endpoints -/

theorem chain_le_head_getLast :
    ∀ (t : List ℕ) (b : ℕ), List.Chain' (· ≤ ·) (b :: t) →
      b ≤ (b :: t).getLast?.getD 0 := by
  intro t
  induction t with
  | nil => intro b _; simp
  | cons c t2 ih =>
    intro b hc
    have hbc : b ≤ c := (List.chain'_cons.1 hc).1
    have := ih c (List.chain'_cons.1 hc).2
    simpa using le_trans hbc (by simpa using this)

theorem mkSegs_chain {M : ℕ} {draw : List ℕ}
    (hbd : ∀ d ∈ draw, d ≤ M) : List.Chain' (· ≤ ·) (mkSegs M draw) := by
  unfold mkSegs
  rw [List.chain'_cons']
  constructor
  · intro y _; exact Nat.zero_le y
  · rw [List.chain'_append]
    refine ⟨npsort_chain draw, List.chain'_singleton M, ?_⟩
    intro x hx y hy
    simp only [List.head?_cons, Option.mem_def, Option.some.injEq] at hy
    subst hy
    exact hbd x (mem_npsort.1 (List.mem_of_mem_getLast? hx))

theorem mkSegs_length (M : ℕ) (draw : List ℕ) :
    (mkSegs M draw).length = draw.length + 2 := by
  simp [mkSegs, length_npsort]

theorem mkSegs_head (M : ℕ) (draw : List ℕ) : (mkSegs M draw).headD 0 = 0 := rfl

theorem mkSegs_getLast (M : ℕ) (draw : List ℕ) :
    (mkSegs M draw).getLast?.getD 0 = M := by
  unfold mkSegs
  have h : (0 :: (npsort draw ++ [M])) = (0 :: npsort draw) ++ [M] := by simp
  rw [h, List.getLast?_concat]
  rfl

theorem mem_mkSegs_le {M : ℕ} {draw : List ℕ} (hbd : ∀ d ∈ draw, d ≤ M) :
    ∀ v ∈ mkSegs M draw, v ≤ M := by
  intro v hv
  simp only [mkSegs, List.mem_cons, List.mem_append, List.mem_singleton] at hv
  rcases hv with h | h | h | h
  · rw [h]; exact Nat.zero_le M
  · exact hbd v (mem_npsort.1 h)
  · exact le_of_eq h
  · cases h

/-! ### Consecutive differences along a boundary array -/

theorem zipTail_get? :
    ∀ (s : List ℕ) (n : ℕ),
      (s.zip s.tail).get? n =
        (s.get? n).bind fun a => (s.get? (n + 1)).map fun b => (a, b) := by
  intro s
  induction s with
  | nil => intro n; rfl
  | cons a t ih =>
    intro n
    cases t with
    | nil => cases n <;> rfl
    | cons b t2 =>
      cases n with
      | zero => rfl
      | succ m => simpa using ih m

theorem zipTail_length (s : List ℕ) :
    (s.zip s.tail).length = s.length - 1 := by
  rw [List.length_zip, List.length_tail]
  omega

theorem diffs_sum :
    ∀ s : List ℕ, List.Chain' (· ≤ ·) s →
      ((s.zip s.tail).map fun p => p.2 - p.1).sum + s.headD 0 =
        s.getLast?.getD 0 := by
  intro s
  induction s with
  | nil => simp
  | cons a t ih =>
    intro hc
    cases t with
    | nil => simp
    | cons b t2 =>
      have hab : a ≤ b := (List.chain'_cons.1 hc).1
      have hrest := ih (List.chain'_cons.1 hc).2
      simp only [List.zip_cons_cons, List.tail_cons, List.map_cons,
        List.sum_cons, List.headD_cons] at hrest ⊢
      rw [List.getLast?_cons_cons]
      omega

theorem sum_ge_card_mul {m : ℕ} :
    ∀ l : List ℕ, (∀ v ∈ l, m ≤ v) → l.length * m ≤ l.sum := by
  intro l
  induction l with
  | nil => simp
  | cons a t ih =>
    intro h
    have ha := h a (List.mem_cons_self a t)
    have := ih fun v hv => h v (List.mem_cons_of_mem a hv)
    simp only [List.length_cons, List.sum_cons]
    calc (t.length + 1) * m = m + t.length * m := by ring
      _ ≤ a + t.sum := Nat.add_le_add ha this

theorem validSegs_iff {msl : ℕ} {segs : List ℕ} :
    validSegs msl segs = true ↔
      ∀ p ∈ segs.zip segs.tail, msl < p.2 - p.1 := by
  simp [validSegs]

/-! ### The retry loop: any success comes from a valid draw -/

theorem segSearch_eq_some {M msl : ℕ} {draws : ℕ → List ℕ} :
    ∀ {fuel i : ℕ} {segs : List ℕ},
      segSearch M msl draws i fuel = some segs →
      ∃ j, segs = mkSegs M (draws j) ∧ validSegs msl segs = true := by
  intro fuel
  induction fuel with
  | zero => intro i segs h; cases h
  | succ n ih =>
    intro i segs h
    simp only [segSearch] at h
    by_cases hv : validSegs msl (mkSegs M (draws i)) = true
    · rw [if_pos hv] at h
      cases h
      exact ⟨i, rfl, hv⟩
    · rw [if_neg hv] at h
      exact ih h

/-- Under nPerm * minSegLength ≥ M (and nPerm ≥ 1), no draw can pass the
loop guard: nPerm segment lengths, each at least minSegLength + 1, would
have to fit inside the M rows. This is the heart of claim C1: the source's
while-loop guard can never be satisfied, so the loop runs forever. -/
theorem validSegs_impossible {M msl nPerm : ℕ} {draw : List ℕ}
    (hn : 1 ≤ nPerm) (hpar : M ≤ nPerm * msl)
    (hlen : draw.length = nPerm - 1) (hbd : ∀ d ∈ draw, d ≤ M) :
    validSegs msl (mkSegs M draw) = false := by
  by_contra h
  have hv : validSegs msl (mkSegs M draw) = true := by
    cases hb : validSegs msl (mkSegs M draw)
    · exact absurd hb h
    · rfl
  have hall := validSegs_iff.1 hv
  set segs := mkSegs M draw with hsegs
  have hchain : List.Chain' (· ≤ ·) segs := mkSegs_chain hbd
  have hsum := diffs_sum segs hchain
  have hhead : segs.headD 0 = 0 := by rw [hsegs]; exact mkSegs_head M draw
  have hlast : segs.getLast?.getD 0 = M := by rw [hsegs]; exact mkSegs_getLast M draw
  rw [hhead, hlast] at hsum
  have hslen : segs.length = draw.length + 2 := by
    rw [hsegs]; exact mkSegs_length M draw
  have hcount : ((segs.zip segs.tail).map fun p => p.2 - p.1).length = nPerm := by
    rw [List.length_map, zipTail_length, hslen, hlen]
    omega
  have hlb : ((segs.zip segs.tail).map fun p => p.2 - p.1).length * (msl + 1) ≤
      ((segs.zip segs.tail).map fun p => p.2 - p.1).sum := by
    apply sum_ge_card_mul
    intro v hv2
    obtain ⟨p, hp, hpv⟩ := List.mem_map.1 hv2
    have := hall p hp
    omega
  rw [hcount] at hlb
  have : nPerm * (msl + 1) = nPerm * msl + nPerm := by ring
  omega

/-! ### Contiguous slices cut at the segment boundaries cover X exactly -/

/-- The list of slices X[segs[k] : segs[k+1], :] in original order. -/
def slicesOf (X : Mat ℚ) (segs : List ℕ) : List (Mat ℚ) :=
  (segs.zip segs.tail).map fun p => (X.drop p.1).take (p.2 - p.1)

theorem get?_eq_some_getD {α : Type} {l : List α} {n : ℕ} (d : α)
    (h : n < l.length) : l.get? n = some (l.getD n d) := by
  rw [List.getD_eq_getElem l d h, List.get?_eq_getElem?, List.getElem?_eq_getElem h]

theorem slices_flatten (X : Mat ℚ) :
    ∀ (s : List ℕ) (a : ℕ), List.Chain' (· ≤ ·) (a :: s) →
      (∀ v ∈ a :: s, v ≤ X.length) →
      (slicesOf X (a :: s)).flatten =
        (X.drop a).take ((a :: s).getLast?.getD 0 - a) := by
  intro s
  induction s with
  | nil =>
    intro a _ _
    simp [slicesOf]
  | cons b t ih =>
    intro a hc hle
    have hab : a ≤ b := (List.chain'_cons.1 hc).1
    have hcbt : List.Chain' (· ≤ ·) (b :: t) := (List.chain'_cons.1 hc).2
    have hbL : b ≤ (b :: t).getLast?.getD 0 := chain_le_head_getLast t b hcbt
    have hlebt : ∀ v ∈ b :: t, v ≤ X.length := fun v hv =>
      hle v (List.mem_cons_of_mem a hv)
    have ihbt := ih b hcbt hlebt
    have hsplit : (slicesOf X (a :: b :: t)).flatten =
        (X.drop a).take (b - a) ++ (slicesOf X (b :: t)).flatten := by
      simp [slicesOf]
    rw [hsplit, ihbt]
    have hLa : (a :: b :: t).getLast?.getD 0 = (b :: t).getLast?.getD 0 := by
      rw [List.getLast?_cons_cons]
    rw [hLa]
    have harith : (b :: t).getLast?.getD 0 - a =
        (b - a) + ((b :: t).getLast?.getD 0 - b) := by omega
    rw [harith, List.take_add]
    congr 1
    have hdd : (X.drop a).drop (b - a) = X.drop b := by
      rw [List.drop_drop]
      congr 1
      omega
    rw [hdd]

theorem range_map_eq_slicesOf (X : Mat ℚ) (segs : List ℕ) :
    (List.range (segs.length - 1)).map
        (fun k => (X.drop (segs.getD k 0)).take
          (segs.getD (k + 1) 0 - segs.getD k 0)) =
      slicesOf X segs := by
  apply List.ext
  intro n
  rw [List.get?_map]
  unfold slicesOf
  rw [List.get?_map, zipTail_get?]
  by_cases h : n < segs.length - 1
  · have h1 : n < segs.length := by omega
    have h2 : n + 1 < segs.length := by omega
    rw [List.get?_range (by simpa using h),
      get?_eq_some_getD 0 h1, get?_eq_some_getD 0 h2]
    rfl
  · have h1 : (List.range (segs.length - 1)).get? n = none :=
      List.get?_eq_none.2 (by simpa using h)
    rw [h1]
    rcases Nat.lt_or_ge n segs.length with h2 | h2
    · have h3 : segs.get? (n + 1) = none := List.get?_eq_none.2 (by omega)
      rw [h3]
      cases segs.get? n <;> rfl
    · have h3 : segs.get? n = none := List.get?_eq_none.2 h2
      rw [h3]
      rfl

/-! ### What a successful permutation call returns -/

theorem permutation_some_spec {X : Mat ℚ} {nPerm msl : ℕ} {idx : List ℕ}
    {draws : ℕ → List ℕ} {fuel : ℕ} {Y : Mat ℚ}
    (hn : 1 ≤ nPerm)
    (hidx : List.Perm idx (List.range nPerm))
    (hlen : ∀ i, (draws i).length = nPerm - 1)
    (hbd : ∀ i, ∀ d ∈ draws i, d ≤ X.length)
    (hY : permutation X nPerm msl idx draws fuel = some Y) :
    ∃ parts : List (Mat ℚ), parts.length = nPerm ∧ parts.flatten = X ∧
      (∀ p ∈ parts, msl < p.length) ∧
      ∃ parts2 : List (Mat ℚ), List.Perm parts2 parts ∧ Y = parts2.flatten := by
  unfold permutation at hY
  cases hsearch : segSearch X.length msl draws 0 fuel with
  | none => rw [hsearch] at hY; cases hY
  | some segs =>
    rw [hsearch] at hY
    obtain ⟨j, hseg, hvalid⟩ := segSearch_eq_some hsearch
    have hbdj : ∀ d ∈ draws j, d ≤ X.length := hbd j
    have hslen : segs.length = nPerm + 1 := by
      rw [hseg, mkSegs_length, hlen j]; omega
    have hchain : List.Chain' (· ≤ ·) segs := hseg ▸ mkSegs_chain hbdj
    have hle : ∀ v ∈ segs, v ≤ X.length := hseg ▸ mem_mkSegs_le hbdj
    refine ⟨slicesOf X segs, ?_, ?_, ?_, ?_⟩
    · rw [slicesOf, List.length_map, zipTail_length, hslen]; omega
    · have hflat := slices_flatten X (npsort (draws j) ++ [X.length]) 0
        (by rw [← mkSegs]; exact hseg ▸ hchain)
        (by rw [← mkSegs]; exact hseg ▸ hle)
      rw [← mkSegs] at hflat
      rw [hseg, hflat, mkSegs_getLast, List.drop_zero, Nat.sub_zero,
        List.take_length]
    · intro p hp
      obtain ⟨q, hq, hpe⟩ := List.mem_map.1 hp
      have hdq : msl < q.2 - q.1 := validSegs_iff.1 hvalid q hq
      have hq1 : q.2 ∈ segs :=
        List.mem_of_mem_tail (List.of_mem_zip hq).2
      have hq2 : q.2 ≤ X.length := hle q.2 hq1
      rw [← hpe]
      rw [List.length_take, List.length_drop]
      omega
    · refine ⟨idx.map (fun k => (X.drop (segs.getD k 0)).take
        (segs.getD (k + 1) 0 - segs.getD k 0)), ?_, ?_⟩
      · have hperm := hidx.map (fun k => (X.drop (segs.getD k 0)).take
          (segs.getD (k + 1) 0 - segs.getD k 0))
        have hr : nPerm = segs.length - 1 := by omega
        rw [hr] at hperm
        exact hperm.trans (by rw [range_map_eq_slicesOf])
      · cases hY
        have hzl : (X.map fun r => r.map fun _ => (0 : ℚ)).length = X.length :=
          List.length_map X _
        set body := (idx.map fun k => (X.drop (segs.getD k 0)).take
          (segs.getD (k + 1) 0 - segs.getD k 0)).flatten with hbody
        have hperm2 : List.Perm body (slicesOf X segs).flatten := by
          apply List.Perm.flatten
          have hperm := hidx.map (fun k => (X.drop (segs.getD k 0)).take
            (segs.getD (k + 1) 0 - segs.getD k 0))
          have hr : nPerm = segs.length - 1 := by omega
          rw [hr] at hperm
          exact hperm.trans (by rw [range_map_eq_slicesOf])
        have hflat := slices_flatten X (npsort (draws j) ++ [X.length]) 0
          (by rw [← mkSegs]; exact hseg ▸ hchain)
          (by rw [← mkSegs]; exact hseg ▸ hle)
        rw [← mkSegs] at hflat
        have hflat2 : (slicesOf X segs).flatten = X := by
          rw [hseg, hflat, mkSegs_getLast, List.drop_zero, Nat.sub_zero,
            List.take_length]
        have hblen : body.length = X.length := by
          rw [hperm2.length_eq, hflat2]
        rw [hblen, ← hzl, List.drop_length, List.append_nil]

theorem segSearch_none {M msl nPerm : ℕ} {draws : ℕ → List ℕ}
    (hn : 1 ≤ nPerm) (hpar : M ≤ nPerm * msl)
    (hlen : ∀ i, (draws i).length = nPerm - 1)
    (hbd : ∀ i, ∀ d ∈ draws i, d ≤ M) :
    ∀ fuel i, segSearch M msl draws i fuel = none := by
  intro fuel
  induction fuel with
  | zero => intro i; rfl
  | succ n ih =>
    intro i
    have hv := validSegs_impossible hn hpar (hlen i) (hbd i)
    simp only [segSearch, hv]
    simpa using ih (i + 1)

/-! ### np.interp at the boundary query points -/

theorem interpAt_left {x : ℚ} :
    ∀ {xp fp : List ℚ}, xp.length = fp.length → 0 < xp.length →
      x ≤ xp.headD 0 → interpAt x xp fp = fp.headD 0 := by
  intro xp fp hlen hpos hle
  cases xp with
  | nil => cases hpos
  | cons x0 xs =>
    cases fp with
    | nil => cases hlen
    | cons y0 ys =>
      cases xs with
      | nil =>
        cases ys with
        | nil => rfl
        | cons b bs => cases hlen
      | cons x1 xs2 =>
        cases ys with
        | nil => cases hlen
        | cons y1 ys2 =>
          simp only [List.headD_cons] at hle
          simp [interpAt, if_pos hle]

theorem interpAt_right {b : ℚ} :
    ∀ {xp fp : List ℚ}, xp.length = fp.length → xp ≠ [] →
      (∀ i, i + 1 < xp.length → xp.getD i 0 < b) →
      xp.getLast?.getD 0 = b →
      interpAt b xp fp = fp.getLast?.getD 0 := by
  intro xp
  induction xp with
  | nil => intro fp _ hne _ _; exact absurd rfl hne
  | cons x0 xs ih =>
    intro fp hlen _ hin hlast
    cases fp with
    | nil => cases hlen
    | cons y0 ys =>
      cases xs with
      | nil =>
        cases ys with
        | nil => rfl
        | cons c cs => cases hlen
      | cons x1 xs2 =>
        cases ys with
        | nil => cases hlen
        | cons y1 ys2 =>
          have hx0 : x0 < b := by
            have := hin 0 (by simp only [List.length_cons]; omega)
            simpa using this
          have hx1b : x1 ≤ b := by
            cases xs2 with
            | nil =>
              have : (x0 :: [x1]).getLast?.getD 0 = x1 := by simp
              rw [← hlast]
              simp
            | cons x2 xs3 =>
              have := hin 1 (by simp)
              simp only [List.getD] at this
              exact le_of_lt (by simpa using this)
          have hnle : ¬ b ≤ x0 := not_le.2 hx0
          have hnlt : ¬ b < x1 := not_lt.2 hx1b
          have hrec := @ih (y1 :: ys2) (by simpa using hlen)
            (by simp)
            (by
              intro i hi
              have := hin (i + 1) (by simpa using Nat.succ_lt_succ hi)
              simpa using this)
            (by rw [← hlast]; rw [List.getLast?_cons_cons])
          simp only [interpAt, if_neg hnle, if_neg hnlt]
          rw [hrec]
          rw [List.getLast?_cons_cons]

/-! ### Cumulative sums of nonnegative sequences are nondecreasing -/

theorem scanl_add_head? (l : List ℚ) (init : ℚ) :
    (l.scanl (· + ·) init).head? = some init := by
  cases l with
  | nil => rfl
  | cons a t => rw [List.scanl_cons, List.singleton_append]; rfl

theorem scanl_add_chain :
    ∀ (l : List ℚ) (init : ℚ), (∀ v ∈ l, 0 ≤ v) →
      List.Chain' (· ≤ ·) (l.scanl (· + ·) init) := by
  intro l
  induction l with
  | nil => intro init _; simp
  | cons a t ih =>
    intro init h
    have ha : 0 ≤ a := h a (List.mem_cons_self a t)
    rw [List.scanl_cons, List.singleton_append, List.chain'_cons']
    constructor
    · intro y hy
      rw [Option.mem_def, scanl_add_head?, Option.some_inj] at hy
      subst hy
      linarith
    · exact ih (init + a) fun v hv => h v (List.mem_cons_of_mem a hv)

theorem cumsum_chain {l : List ℚ} (h : ∀ v ∈ l, 0 ≤ v) :
    List.Chain' (· ≤ ·) (cumsum l) :=
  (scanl_add_chain l 0 h).tail

/-! ### Rotation preserves row norms -/

/-- Sum of squares of a row vector. -/
def sumSq (r : List ℝ) : ℝ := (r.map fun v => v ^ 2).sum

/-- Euclidean norm of a row vector. -/
noncomputable def rowNorm (r : List ℝ) : ℝ := Real.sqrt (sumSq r)

/-- The algebraic heart of norm preservation: a row (a, b, d) times the
Rodrigues matrix of a unit axis (x, y, z) and an angle with sine s and
cosine c has the same sum of squares as (a, b, d). -/
theorem rodrigues_sumSq (x y z s c a b d : ℝ)
    (h1 : x ^ 2 + y ^ 2 + z ^ 2 = 1) (h2 : s ^ 2 + c ^ 2 = 1) :
    (a * (x * x * (1 - c) + c) + b * (x * y * (1 - c) + z * s) +
        d * (z * x * (1 - c) - y * s)) ^ 2 +
      (a * (x * y * (1 - c) - z * s) + b * (y * y * (1 - c) + c) +
        d * (y * z * (1 - c) + x * s)) ^ 2 +
      (a * (z * x * (1 - c) + y * s) + b * (y * z * (1 - c) - x * s) +
        d * (z * z * (1 - c) + c)) ^ 2 =
      a ^ 2 + b ^ 2 + d ^ 2 := by
  linear_combination
    (s ^ 2 * (a ^ 2 + b ^ 2 + d ^ 2) +
      (1 - c) ^ 2 * (a * x + b * y + d * z) ^ 2) * h1 +
    ((a ^ 2 + b ^ 2 + d ^ 2) - (a * x + b * y + d * z) ^ 2) * h2

theorem rotRow_sumSq (u1 u2 u3 θ : ℝ) (hax : u1 ≠ 0 ∨ u2 ≠ 0 ∨ u3 ≠ 0)
    (a b d : ℝ) : sumSq (rotRow u1 u2 u3 θ [a, b, d]) = sumSq [a, b, d] := by
  have hq : 0 < u1 ^ 2 + u2 ^ 2 + u3 ^ 2 := by
    rcases hax with h | h | h <;>
      nlinarith [sq_nonneg u1, sq_nonneg u2, sq_nonneg u3, sq_abs u1,
        sq_abs u2, sq_abs u3, abs_pos.2 h]
  have hn : Real.sqrt (u1 ^ 2 + u2 ^ 2 + u3 ^ 2) ≠ 0 :=
    ne_of_gt (Real.sqrt_pos.2 hq)
  have hn2 : Real.sqrt (u1 ^ 2 + u2 ^ 2 + u3 ^ 2) ^ 2 =
      u1 ^ 2 + u2 ^ 2 + u3 ^ 2 := Real.sq_sqrt (le_of_lt hq)
  have h1 : (u1 / Real.sqrt (u1 ^ 2 + u2 ^ 2 + u3 ^ 2)) ^ 2 +
      (u2 / Real.sqrt (u1 ^ 2 + u2 ^ 2 + u3 ^ 2)) ^ 2 +
      (u3 / Real.sqrt (u1 ^ 2 + u2 ^ 2 + u3 ^ 2)) ^ 2 = 1 := by
    field_simp
  have h2 : Real.sin θ ^ 2 + Real.cos θ ^ 2 = 1 := Real.sin_sq_add_cos_sq θ
  have hmain := rodrigues_sumSq
    (u1 / Real.sqrt (u1 ^ 2 + u2 ^ 2 + u3 ^ 2))
    (u2 / Real.sqrt (u1 ^ 2 + u2 ^ 2 + u3 ^ 2))
    (u3 / Real.sqrt (u1 ^ 2 + u2 ^ 2 + u3 ^ 2))
    (Real.sin θ) (Real.cos θ) a b d h1 h2
  simp only [rotRow, sumSq, List.map_cons, List.map_nil, List.sum_cons,
    List.sum_nil]
  simp only [sumSq, List.map_cons, List.map_nil, List.sum_cons,
    List.sum_nil] at hmain
  linarith [hmain]

theorem getD_map_fix {α β : Type} (f : α → β) (dα : α) (dβ : β)
    (hf : f dα = dβ) :
    ∀ (l : List α) (i : ℕ), (l.map f).getD i dβ = f (l.getD i dα) := by
  intro l
  induction l with
  | nil => intro i; simp [hf]
  | cons a t ih =>
    intro i
    cases i with
    | zero => simp
    | succ m => simpa using ih m

theorem list3_decomp {α : Type} {r : List α} (h : r.length = 3) :
    ∃ a b d, r = [a, b, d] := by
  cases r with
  | nil => cases h
  | cons a t =>
    cases t with
    | nil => cases h
    | cons b t2 =>
      cases t2 with
      | nil => cases h
      | cons d t3 =>
        cases t3 with
        | nil => exact ⟨a, b, d, rfl⟩
        | cons e t4 => cases h

theorem getD_mem_of_lt {α : Type} {l : List α} {i : ℕ} (d : α)
    (h : i < l.length) : l.getD i d ∈ l := by
  rw [List.getD_eq_getElem l d h]
  exact List.getElem_mem h

theorem rotation_ok_of_isMat {X : Mat ℝ} {M : ℕ} (hX : isMat M 3 X)
    (u1 u2 u3 θ : ℝ) :
    rotation X [u1, u2, u3] θ = Except.ok (X.map (rotRow u1 u2 u3 θ)) := by
  unfold rotation
  have hall : X.all (fun r => r.length == 3) = true :=
    List.all_eq_true.2 fun r hr => beq_iff_eq.2 (hX.2 r hr)
  rw [hall]
  rfl

/-- C5: whenever rotation is applied to an M-by-3 matrix with a nonzero
drawn axis, every row of the result has the same Euclidean norm as the
corresponding row of the input, because every row is multiplied by the
same Rodrigues rotation matrix. -/
theorem C5_rotation_row_norms (X : Mat ℝ) (u1 u2 u3 θ : ℝ) (M : ℕ)
    (hX : isMat M 3 X) (hax : u1 ≠ 0 ∨ u2 ≠ 0 ∨ u3 ≠ 0) (Y : Mat ℝ)
    (hY : rotation X [u1, u2, u3] θ = Except.ok Y) :
    ∀ i, rowNorm (Y.getD i []) = rowNorm (X.getD i []) := by
  rw [rotation_ok_of_isMat hX u1 u2 u3 θ] at hY
  have hYeq : Y = X.map (rotRow u1 u2 u3 θ) := by
    cases hY
    rfl
  subst hYeq
  intro i
  rw [getD_map_fix (rotRow u1 u2 u3 θ) [] [] rfl]
  rcases Nat.lt_or_ge i X.length with hi | hi
  · have hrow : (X.getD i []).length = 3 := hX.2 _ (getD_mem_of_lt [] hi)
    obtain ⟨a, b, d, hr3⟩ := list3_decomp hrow
    rw [hr3]
    unfold rowNorm
    rw [rotRow_sumSq u1 u2 u3 θ hax a b d]
  · rw [getD_eq_default_of_le [] hi]
    rfl

/-- Witness for C5: a concrete 90-degree rotation of the row (1, 2, 3)
about the z-axis gives (2, -1, 3), and the norms agree. -/
theorem C5_witness :
    rowNorm ((([[2, -1, 3]] : Mat ℝ)).getD 0 []) =
      rowNorm ((([[1, 2, 3]] : Mat ℝ)).getD 0 []) := by
  have hX : isMat 1 3 ([[1, 2, 3]] : Mat ℝ) := by
    constructor
    · rfl
    · intro r hr
      rw [List.mem_singleton.1 hr]
      rfl
  have hY : rotation ([[1, 2, 3]] : Mat ℝ) [0, 0, 1] (Real.pi / 2) =
      Except.ok ([[2, -1, 3]] : Mat ℝ) := by
    rw [rotation_ok_of_isMat hX 0 0 1 (Real.pi / 2)]
    simp only [List.map_cons, List.map_nil, rotRow, Real.cos_pi_div_two,
      Real.sin_pi_div_two]
    norm_num
  exact C5_rotation_row_norms [[1, 2, 3]] 0 0 1 (Real.pi / 2) 1 hX
    (Or.inr (Or.inr one_ne_zero)) [[2, -1, 3]] hY 0

/-! ### Claim C8 : jitter with sigma = 0 is the identity -/

/-- C8: for every matrix X, jitter(X, 0) equals X exactly: with noise scale
sigma = 0 every drawn Gaussian value is 0 + 0 * z = 0, so the output equals
the input entry for entry, whatever the random tape holds. -/
theorem C8_jitter_sigma_zero (X : Mat ℚ) (z : ℕ → ℕ → ℚ) : jitter X 0 z = X := by
  unfold jitter
  apply idxMap_eq_self
  intro i r
  apply idxMap_eq_self
  intro j v
  simp [normal]

/-! ### Claim C7 : scaling applies exactly one factor per channel -/

/-- C7: scaling(X, sigma) multiplies every entry of column j by the single
channel factor drawn from Normal(1, sigma) for that column — the factor
normal 1 sigma (z j) depends on j only, so all rows of one column are
scaled identically. -/
theorem C7_scaling_per_channel (X : Mat ℚ) (σ : ℚ) (z : ℕ → ℚ) (M N : ℕ)
    (hX : isMat M N X) :
    ∀ i < M, ∀ j < N,
      entry (scaling X σ z) i j = entry X i j * normal 1 σ (z j) := by
  intro i hi j hj
  have hiX : i < X.length := by rw [hX.1]; exact hi
  have hrow : X.get? i = some (X.getD i []) := get?_eq_some_getD [] hiX
  have h1 : (scaling X σ z).get? i =
      some (idxMap (fun j v => v * normal 1 σ (z j)) 0 (X.getD i [])) := by
    unfold scaling
    rw [idxMap_get? _ 0 X i, hrow]
    rfl
  have hjrow : j < (X.getD i []).length := by
    rw [hX.2 _ (getD_mem_of_lt [] hiX)]
    exact hj
  have h2 : (X.getD i []).get? j = some ((X.getD i []).getD j 0) :=
    get?_eq_some_getD 0 hjrow
  unfold entry
  rw [getD_eq_of_get? h1]
  rw [getD_eq_of_get? (by rw [idxMap_get? _ 0 _ j, h2]; rfl)]
  simp

/-- Witness for C7 at a concrete input: scaling the 2-by-2 matrix
[[3, 4], [5, 6]] with sigma = 1 and tape z = 1 doubles column 1's entry. -/
theorem C7_witness :
    entry (scaling [[3, 4], [5, 6]] 1 fun _ => 1) 0 1 =
      entry [[3, 4], [5, 6]] 0 1 * normal 1 1 1 :=
  C7_scaling_per_channel [[3, 4], [5, 6]] 1 (fun _ => 1) 2 2
    (by with_unfolding_all decide) 0 (by decide) 1 (by decide)

/-! ### Claim C1 : impossible permutation parameters hang the retry loop -/

/-- C1 (code bug): when nPerm * minSegLength ≥ M there is no InvalidParameters
check in the source — instead the while-loop guard is unsatisfiable for every
possible draw, so the loop never exits: for every fuel bound the modelled
loop returns none, i.e. permutation loops forever instead of raising. -/
theorem C1_permutation_never_terminates (X : Mat ℚ) (nPerm msl : ℕ)
    (idx : List ℕ) (draws : ℕ → List ℕ)
    (hn : 1 ≤ nPerm) (hpar : X.length ≤ nPerm * msl)
    (hlen : ∀ i, (draws i).length = nPerm - 1)
    (hbd : ∀ i, ∀ d ∈ draws i, d ≤ X.length) :
    ∀ fuel, permutation X nPerm msl idx draws fuel = none := by
  intro fuel
  unfold permutation
  rw [segSearch_none hn hpar hlen hbd fuel 0]

/-- Witness for C1: a 25-row input with nPerm = 4, minSegLength = 10
(4 * 10 = 40 ≥ 25): the loop makes no progress for any number of
iterations. -/
theorem C1_witness :
    permutation (List.replicate 25 [0, 0, 0]) 4 10 [0, 1, 2, 3]
      (fun _ => [10, 12, 14]) 3 = none :=
  C1_permutation_never_terminates (List.replicate 25 [0, 0, 0]) 4 10
    [0, 1, 2, 3] (fun _ => [10, 12, 14]) (by norm_num)
    (by simp) (fun _ => rfl)
    (by
      intro i d hd
      simp only [List.mem_cons, List.not_mem_nil, or_false] at hd
      simp only [List.length_replicate]
      rcases hd with h | h | h <;> omega) 3

/-! ### Claim C9 : time_warp dies on an undefined global name -/

theorem resolveGlobal_GenerateRandomCurves :
    resolveGlobal "GenerateRandomCurves" = Except.error PyError.nameError := by
  unfold resolveGlobal
  rw [if_neg (by decide)]

theorem time_warp_always_error (CS : List ℚ → List ℚ → ℚ → ℚ) (X : Mat ℚ)
    (σ : ℚ) (knot : ℕ) (zy : ℕ → ℕ → ℚ) :
    time_warp CS X σ knot zy = Except.error PyError.nameError := by
  unfold time_warp distort_timesteps
  rw [resolveGlobal_GenerateRandomCurves]
  rfl

/-- C9: for every input, time_warp raises a NameError instead of returning a
matrix: its helper distort_timesteps calls GenerateRandomCurves, a name the
module never defines (the only curve generator is generate_random_curves),
so the time-warp path can never complete. -/
theorem C9_time_warp_name_error :
    (∀ (CS : List ℚ → List ℚ → ℚ → ℚ) (X : Mat ℚ) (σ : ℚ) (knot : ℕ)
      (zy : ℕ → ℕ → ℚ),
      time_warp CS X σ knot zy = Except.error PyError.nameError) ∧
    "GenerateRandomCurves" ∉ moduleGlobals ∧
    "generate_random_curves" ∈ moduleGlobals := by
  refine ⟨time_warp_always_error, by decide, by decide⟩

/-! ### Claim C3 : the cumulative time axis is NOT always monotone -/

/-- Executable check that a list is nondecreasing (Chain' of ≤). -/
def nondecrB : List ℚ → Bool
  | [] => true
  | [_] => true
  | a :: b :: t => decide (a ≤ b) && nondecrB (b :: t)

theorem nondecrB_iff : ∀ l : List ℚ,
    nondecrB l = true ↔ List.Chain' (· ≤ ·) l := by
  intro l
  induction l with
  | nil => simp [nondecrB]
  | cons a t ih =>
    cases t with
    | nil => simp [nondecrB]
    | cons b t2 =>
      rw [List.chain'_cons, ← ih]
      simp [nondecrB]

/-- C3 counterexample: take M = 6 and knot = 4, so the control x-locations
are exactly the integers 0..5 and every interpolating spline evaluator
returns the knot y-values at the evaluation points. With knot draws giving
y-values [1, -2, 1, 1, 1, 1] on each channel (zy tape: z = -3 at knot row 1,
sigma = 1), the generated curve's channel-0 column is [1, -2, 1, 1, 1, 1]
and its cumulative sum [1, -1, 0, 1, 2, 3] decreases at step 1: the claimed
monotonicity is false at this concrete input. -/
theorem C3_counterexample :
    InterpolatesOn npCS [0, 1, 2, 3, 4, 5] [1, -2, 1, 1, 1, 1] ∧
    generate_random_curves npCS (List.replicate 6 [0, 0, 0]) 1 4
        (fun i _ => if i = 1 then -3 else 0) =
      Except.ok [[1, 1, 1], [-2, -2, -2], [1, 1, 1], [1, 1, 1], [1, 1, 1],
        [1, 1, 1]] ∧
    getCol ([[1, 1, 1], [-2, -2, -2], [1, 1, 1], [1, 1, 1], [1, 1, 1],
        [1, 1, 1]] : Mat ℚ) 0 = Except.ok [1, -2, 1, 1, 1, 1] ∧
    cumsum [1, -2, 1, 1, 1, 1] = [1, -1, 0, 1, 2, 3] ∧
    ¬ List.Chain' (· ≤ ·) (cumsum [1, -2, 1, 1, 1, 1]) := by
  refine ⟨?_, ?_, ?_, ?_, ?_⟩
  · with_unfolding_all decide
  · with_unfolding_all decide
  · with_unfolding_all decide
  · with_unfolding_all decide
  · have hb : nondecrB (cumsum [1, -2, 1, 1, 1, 1]) = false := by
      with_unfolding_all decide
    intro hch
    have h1 := (nondecrB_iff _).2 hch
    rw [hb] at h1
    cases h1

/-- C3 amended: the running cumulative sum of a random-curve column is
monotonically nondecreasing provided the generated curve is entrywise
nonnegative; without that proviso monotonicity fails (the spline follows
the knot draws, which Normal(1, sigma) makes negative with positive
probability — see the counterexample). -/
theorem C3_cumsum_monotone_of_nonneg (CS : List ℚ → List ℚ → ℚ → ℚ)
    (X : Mat ℚ) (σ : ℚ) (knot : ℕ) (zy : ℕ → ℕ → ℚ) (tt : Mat ℚ)
    (c : List ℚ) (j : ℕ)
    (hgen : generate_random_curves CS X σ knot zy = Except.ok tt)
    (hpos : ∀ r ∈ tt, ∀ v ∈ r, 0 ≤ v)
    (hcol : getCol tt j = Except.ok c) :
    List.Chain' (· ≤ ·) (cumsum c) := by
  apply cumsum_chain
  intro v hv
  obtain ⟨r, hr, hvr⟩ := mem_of_getCol_ok hcol v hv
  exact hpos r hr v hvr

/-- Witness for the amended C3: with sigma = 0 every knot draw is 1, the
curve is all ones, and the cumulative time axis 1, 2, ..., 6 is monotone. -/
theorem C3_witness : List.Chain' (· ≤ ·) (cumsum [1, 1, 1, 1, 1, 1]) :=
  C3_cumsum_monotone_of_nonneg npCS (List.replicate 6 [0, 0, 0]) 0 4
    (fun _ _ => 0)
    [[1, 1, 1], [1, 1, 1], [1, 1, 1], [1, 1, 1], [1, 1, 1], [1, 1, 1]]
    [1, 1, 1, 1, 1, 1] 0
    (by with_unfolding_all decide)
    (by with_unfolding_all decide)
    (by with_unfolding_all decide)

/-! ### Claim C4 : a successful permutation call re-blocks the rows -/

/-- C4: whenever permutation(X, nPerm, minSegLength) returns a matrix, the
output's rows are a permutation (as a multiset) of the input's rows, and the
output is the concatenation, in the drawn order, of exactly nPerm contiguous
segments of X, each longer than minSegLength rows. -/
theorem C4_permutation_reblocking {X : Mat ℚ} {nPerm msl : ℕ}
    {idx : List ℕ} {draws : ℕ → List ℕ} {fuel : ℕ} {Y : Mat ℚ}
    (hn : 1 ≤ nPerm) (hidx : List.Perm idx (List.range nPerm))
    (hlen : ∀ i, (draws i).length = nPerm - 1)
    (hbd : ∀ i, ∀ d ∈ draws i, d ≤ X.length)
    (hY : permutation X nPerm msl idx draws fuel = some Y) :
    List.Perm Y X ∧
    ∃ parts : List (Mat ℚ), parts.length = nPerm ∧ parts.flatten = X ∧
      (∀ p ∈ parts, msl < p.length) ∧
      ∃ parts2 : List (Mat ℚ), List.Perm parts2 parts ∧ Y = parts2.flatten := by
  obtain ⟨parts, hplen, hpflat, hpseg, parts2, hp2, hYeq⟩ :=
    permutation_some_spec hn hidx hlen hbd hY
  refine ⟨?_, parts, hplen, hpflat, hpseg, parts2, hp2, hYeq⟩
  rw [hYeq, ← hpflat]
  exact hp2.flatten

/-- Witness for C4: a concrete 5-row input split at row 2 into two segments
swapped by the drawn order [1, 0]. -/
theorem C4_witness :
    List.Perm ([[3], [4], [5], [1], [2]] : Mat ℚ) [[1], [2], [3], [4], [5]] ∧
    ∃ parts : List (Mat ℚ), parts.length = 2 ∧
      parts.flatten = ([[1], [2], [3], [4], [5]] : Mat ℚ) ∧
      (∀ p ∈ parts, 1 < p.length) ∧
      ∃ parts2 : List (Mat ℚ), List.Perm parts2 parts ∧
        ([[3], [4], [5], [1], [2]] : Mat ℚ) = parts2.flatten :=
  @C4_permutation_reblocking [[1], [2], [3], [4], [5]] 2 1 [1, 0]
    (fun _ => [2]) 1 [[3], [4], [5], [1], [2]]
    (by norm_num) (by decide) (fun _ => rfl)
    (by
      intro i d hd
      simp only [List.mem_cons, List.not_mem_nil, or_false] at hd
      subst hd
      decide)
    (by with_unfolding_all decide)

/-! ### Claim C2 : shape errors for wrong channel counts -/

theorem except_ok_bind {ε α β : Type} (a : α) (f : α → Except ε β) :
    (Except.ok a >>= f) = f a := rfl

theorem except_error_bind {ε α β : Type} (e : ε) (f : α → Except ε β) :
    ((Except.error e : Except ε α) >>= f) = Except.error e := rfl

theorem shape1_of_isMat {α : Type} {M N : ℕ} {X : Mat α} (hX : isMat M N X)
    (hM : 1 ≤ M) : shape1 X = N := by
  cases X with
  | nil =>
    rw [← hX.1] at hM
    cases hM
  | cons r t => exact hX.2 r (List.mem_cons_self r t)

theorem arangeCount_pos (M knot : ℕ) (hM : 2 ≤ M) :
    0 < arangeCount (M : ℚ) (((M : ℚ) - 1) / ((knot : ℚ) + 1)) := by
  unfold arangeCount
  have hM2 : (2 : ℚ) ≤ (M : ℚ) := by exact_mod_cast hM
  have hstep : (0 : ℚ) < ((M : ℚ) - 1) / ((knot : ℚ) + 1) := by
    apply div_pos
    · linarith
    · positivity
  have hq : (0 : ℚ) < (M : ℚ) / (((M : ℚ) - 1) / ((knot : ℚ) + 1)) := by
    apply div_pos
    · linarith
    · exact hstep
  have := Int.ceil_pos.2 hq
  omega

theorem headD_length_of_all {α : Type} {A : Mat α} {N : ℕ}
    (hall : ∀ r ∈ A, r.length = N) (hne : A ≠ []) :
    (A.headD []).length = N := by
  cases A with
  | nil => exact absurd rfl hne
  | cons r t => exact hall r (List.mem_cons_self r t)

/-- The curve generator never produces a result when the input has fewer
than three channels: depending on the region, either CubicSpline's length
validation raises ValueError (arange yields a number of x-locations other
than the knot+2 y-draws, e.g. 2 ≤ M ≤ knot+1), or the access to the
missing xx column 0, 1 or 2 raises IndexError — in all cases an error. -/
theorem curves_not_ok_of_lt3 (CS : List ℚ → List ℚ → ℚ → ℚ) (X : Mat ℚ)
    (σ : ℚ) (knot : ℕ) (zy : ℕ → ℕ → ℚ) (M N : ℕ)
    (hX : isMat M N X) (hM : 2 ≤ M) (hN : N < 3) :
    isOkE (generate_random_curves CS X σ knot zy) = false := by
  have hsh : shape1 X = N := shape1_of_isMat hX (by omega)
  have hlen : X.length = M := hX.1
  unfold generate_random_curves
  rw [hsh, hlen]
  have hcount := arangeCount_pos M knot hM
  have hxslen : (knotXs M knot).length =
      arangeCount (M : ℚ) (((M : ℚ) - 1) / ((knot : ℚ) + 1)) := by
    simp [knotXs, arangeQ]
  have hxsne : knotXs M knot ≠ [] := by
    intro hc
    rw [hc] at hxslen
    simp only [List.length_nil] at hxslen
    omega
  have hxxall : ∀ r ∈ xxMat M knot N, r.length = N := by
    intro r hr
    obtain ⟨x, _, hxr⟩ := List.mem_map.1 hr
    rw [← hxr, List.length_replicate]
  have hyyall : ∀ r ∈ yyMat N knot σ zy, r.length = N := by
    intro r hr
    obtain ⟨i, _, hir⟩ := List.mem_map.1 hr
    rw [← hir, List.length_map, List.length_range]
  have hxxne : xxMat M knot N ≠ [] := by
    unfold xxMat
    intro hc
    rw [List.map_eq_nil_iff] at hc
    exact hxsne hc
  have hxxerr : ∀ j, N ≤ j →
      getCol (xxMat M knot N) j = Except.error PyError.indexError := fun j hj =>
    getCol_error _ j hxxne (by rw [headD_length_of_all hxxall hxxne]; exact hj)
  interval_cases N
  · rw [hxxerr 0 (le_refl 0), except_error_bind]
    rfl
  · rw [getCol_ok 0 (xxMat M knot 1) 0
        (by intro r hr; rw [hxxall r hr]; omega),
      except_ok_bind,
      getCol_ok 0 (yyMat 1 knot σ zy) 0
        (by intro r hr; rw [hyyall r hr]; omega),
      except_ok_bind]
    cases hchk : cubicSplineCheck ((xxMat M knot 1).map fun r => r.getD 0 0)
        ((yyMat 1 knot σ zy).map fun r => r.getD 0 0) with
    | error e => rfl
    | ok u =>
      rw [hxxerr 1 (by omega)]
      rfl
  · rw [getCol_ok 0 (xxMat M knot 2) 0
        (by intro r hr; rw [hxxall r hr]; omega),
      except_ok_bind,
      getCol_ok 0 (yyMat 2 knot σ zy) 0
        (by intro r hr; rw [hyyall r hr]; omega),
      except_ok_bind]
    cases hchk : cubicSplineCheck ((xxMat M knot 2).map fun r => r.getD 0 0)
        ((yyMat 2 knot σ zy).map fun r => r.getD 0 0) with
    | error e => rfl
    | ok u =>
      rw [getCol_ok 0 (xxMat M knot 2) 1
          (by intro r hr; rw [hxxall r hr]; omega),
        getCol_ok 0 (yyMat 2 knot σ zy) 1
          (by intro r hr; rw [hyyall r hr]; omega)]
      simp only [except_ok_bind]
      cases hchk2 : cubicSplineCheck ((xxMat M knot 2).map fun r => r.getD 1 0)
          ((yyMat 2 knot σ zy).map fun r => r.getD 1 0) with
      | error e => rfl
      | ok u2 =>
        rw [hxxerr 2 (by omega)]
        rfl

theorem rotation_error_of_axis {X : Mat ℝ} {axis : List ℝ} {θ : ℝ}
    (h : axis.length ≠ 3) :
    rotation X axis θ = Except.error PyError.valueError := by
  cases axis with
  | nil => rfl
  | cons u1 t1 =>
    cases t1 with
    | nil => rfl
    | cons u2 t2 =>
      cases t2 with
      | nil => rfl
      | cons u3 t3 =>
        cases t3 with
        | nil => simp at h
        | cons u4 t4 => rfl

theorem isOkE_bind_false {ε α β : Type} {x : Except ε α}
    (f : α → Except ε β) (h : isOkE x = false) :
    isOkE (x >>= f) = false := by
  cases x with
  | ok a => simp [isOkE] at h
  | error e => rfl

theorem rand_sample_timesteps_not_ok_of_lt3 {M N nSample : ℕ}
    {draws : ℕ → List ℕ} (hN : N < 3) :
    isOkE (rand_sample_timesteps M N nSample draws) = false := by
  unfold rand_sample_timesteps
  cases hrc : randintCheck M nSample with
  | error e => rfl
  | ok u => interval_cases N <;> rfl

/-- For fewer than three channels random sampling never produces a result:
randint's validation raises ValueError when M ≤ 2 or nSample < 2, and
otherwise the assignment into the missing tt column raises IndexError. -/
theorem rand_sampling_not_ok_of_lt3 {X : Mat ℚ} {nSample : ℕ}
    {draws : ℕ → List ℕ} (h : shape1 X < 3) :
    isOkE (rand_sampling X nSample draws) = false := by
  unfold rand_sampling
  exact isOkE_bind_false _ (rand_sample_timesteps_not_ok_of_lt3 h)

/-- C2 amended: the transforms that hardcode three channels fail on inputs
with FEWER than three channels, raising an error rather than computing a
result (IndexError from the missing column, or ValueError from scipy
CubicSpline's length validation / np.random.randint's range and size
validation, depending on M, knot and nSample); rotation raises ValueError
whenever the drawn axis is not a 3-vector, i.e. for every N ≠ 3; and
time_warp raises NameError on every input. But for N > 3 the curve
generator and random sampling compute a result from channels 0..2 instead
of raising (see the counterexample), so the original
"every N ≠ 3 raises" is too strong. -/
theorem C2_amended_shape_errors :
    (∀ (CS : List ℚ → List ℚ → ℚ → ℚ) (X : Mat ℚ) (σ : ℚ) (knot : ℕ)
      (zy : ℕ → ℕ → ℚ) (M N : ℕ), isMat M N X → 2 ≤ M → N < 3 →
      isOkE (generate_random_curves CS X σ knot zy) = false) ∧
    (∀ (X : Mat ℝ) (axis : List ℝ) (θ : ℝ), axis.length ≠ 3 →
      rotation X axis θ = Except.error PyError.valueError) ∧
    (∀ (X : Mat ℚ) (nSample : ℕ) (draws : ℕ → List ℕ), shape1 X < 3 →
      isOkE (rand_sampling X nSample draws) = false) ∧
    (∀ (CS : List ℚ → List ℚ → ℚ → ℚ) (X : Mat ℚ) (σ : ℚ) (knot : ℕ)
      (zy : ℕ → ℕ → ℚ),
      time_warp CS X σ knot zy = Except.error PyError.nameError) := by
  refine ⟨?_, ?_, ?_, ?_⟩
  · intro CS X σ knot zy M N hX hM hN
    exact curves_not_ok_of_lt3 CS X σ knot zy M N hX hM hN
  · intro X axis θ h
    exact rotation_error_of_axis h
  · intro X nSample draws h
    exact rand_sampling_not_ok_of_lt3 h
  · exact time_warp_always_error

/-- Witness for the amended C2, at concrete 2-channel inputs (where the
program raises ValueError from CubicSpline's length check at M = 2 < knot+2
and from randint's empty range at M = 2, matching the model's errors). -/
theorem C2_witness :
    isOkE (generate_random_curves (fun _ _ _ => 0) [[1, 2], [3, 4]] 0 4
        (fun _ _ => 0)) = false ∧
    rotation ([[1, 2]] : Mat ℝ) [1, 1] 0 = Except.error PyError.valueError ∧
    isOkE (rand_sampling [[1, 2], [3, 4]] 5 (fun _ => [])) = false ∧
    time_warp (fun _ _ _ => 0) [[1, 2], [3, 4]] 0 4 (fun _ _ => 0) =
      Except.error PyError.nameError :=
  ⟨C2_amended_shape_errors.1 _ _ _ _ _ 2 2 (by with_unfolding_all decide)
      (by norm_num) (by norm_num),
    C2_amended_shape_errors.2.1 _ _ _ (by simp),
    C2_amended_shape_errors.2.2.1 _ _ _ (by with_unfolding_all decide),
    C2_amended_shape_errors.2.2.2 _ _ _ _ _⟩

/-- C2 counterexample: a 5-by-4 input (N = 4 ≠ 3) does NOT make random
sampling raise an error: the transform computes a result, reading only
channels 0..2 and leaving channel 3 at zero. -/
theorem C2_counterexample :
    shape1 ([[1, 2, 3, 4], [5, 6, 7, 8], [9, 10, 11, 12], [13, 14, 15, 16],
        [17, 18, 19, 20]] : Mat ℚ) = 4 ∧
    isOkE (rand_sampling [[1, 2, 3, 4], [5, 6, 7, 8], [9, 10, 11, 12],
        [13, 14, 15, 16], [17, 18, 19, 20]] 4 (fun _ => [1, 2])) = true := by
  refine ⟨rfl, by with_unfolding_all decide⟩

/-! ### Claim C6 : every transform preserves the input shape -/

theorem except_bind_ok {ε α β : Type} {x : Except ε α} {f : α → Except ε β}
    {y : β} (h : x >>= f = Except.ok y) :
    ∃ a, x = Except.ok a ∧ f a = Except.ok y := by
  cases x with
  | ok a => exact ⟨a, rfl, h⟩
  | error e =>
    rw [except_error_bind] at h
    cases h

theorem curve_ok_isMat {CS : List ℚ → List ℚ → ℚ → ℚ} {X : Mat ℚ} {σ : ℚ}
    {knot : ℕ} {zy : ℕ → ℕ → ℚ} {tt : Mat ℚ}
    (h : generate_random_curves CS X σ knot zy = Except.ok tt) :
    isMat X.length 3 tt := by
  unfold generate_random_curves at h
  obtain ⟨a1, _, h⟩ := except_bind_ok h
  obtain ⟨a2, _, h⟩ := except_bind_ok h
  obtain ⟨u1, _, h⟩ := except_bind_ok h
  obtain ⟨a3, _, h⟩ := except_bind_ok h
  obtain ⟨a4, _, h⟩ := except_bind_ok h
  obtain ⟨u2, _, h⟩ := except_bind_ok h
  obtain ⟨a5, _, h⟩ := except_bind_ok h
  obtain ⟨a6, _, h⟩ := except_bind_ok h
  obtain ⟨u3, _, h⟩ := except_bind_ok h
  have htt : tt = (List.range X.length).map fun (t : ℕ) =>
      [CS a1 a2 (t : ℚ), CS a3 a4 (t : ℚ), CS a5 a6 (t : ℚ)] := by
    cases h
    rfl
  rw [htt]
  constructor
  · rw [List.length_map, List.length_range]
  · intro r hr
    obtain ⟨t, _, htr⟩ := List.mem_map.1 hr
    rw [← htr]
    rfl

theorem mem_zipWith {α β γ : Type} {f : α → β → γ} :
    ∀ {A : List α} {B : List β} {c : γ}, c ∈ List.zipWith f A B →
      ∃ a b, a ∈ A ∧ b ∈ B ∧ c = f a b := by
  intro A
  induction A with
  | nil => intro B c h; simp at h
  | cons a t ih =>
    intro B c h
    cases B with
    | nil => simp at h
    | cons b u =>
      rw [List.zipWith_cons_cons] at h
      rcases List.mem_cons.1 h with h | h
      · exact ⟨a, b, List.mem_cons_self _ _, List.mem_cons_self _ _, h⟩
      · obtain ⟨x, y, hx, hy, hc⟩ := ih h
        exact ⟨x, y, List.mem_cons_of_mem a hx, List.mem_cons_of_mem b hy, hc⟩

theorem isMat_zipWith_mul {M N : ℕ} {A B : Mat ℚ} (hA : isMat M N A)
    (hB : isMat M N B) :
    isMat M N (List.zipWith (fun r s => List.zipWith (· * ·) r s) A B) := by
  constructor
  · rw [List.length_zipWith, hA.1, hB.1, min_self]
  · intro w hw
    obtain ⟨r, s, hr, hs, hweq⟩ := mem_zipWith hw
    rw [hweq, List.length_zipWith, hA.2 r hr, hB.2 s hs, min_self]

theorem elemMul_ok_isMat {M N : ℕ} {A B Y : Mat ℚ} (hA : isMat M N A)
    (hB : isMat M N B) (h : elemMul A B = Except.ok Y) : isMat M N Y := by
  unfold elemMul at h
  by_cases hc : A.map List.length = B.map List.length
  · rw [if_pos hc] at h
    cases h
    exact isMat_zipWith_mul hA hB
  · rw [if_neg hc] at h
    cases h

theorem rotation_ok_isMat {X : Mat ℝ} {M : ℕ} (hX : isMat M 3 X)
    {axis : List ℝ} {θ : ℝ} {Y : Mat ℝ}
    (h : rotation X axis θ = Except.ok Y) : isMat M 3 Y := by
  by_cases hlen3 : axis.length = 3
  · obtain ⟨u1, u2, u3, hax⟩ := list3_decomp hlen3
    subst hax
    rw [rotation_ok_of_isMat hX u1 u2 u3 θ] at h
    have hYeq : Y = X.map (rotRow u1 u2 u3 θ) := by
      cases h
      rfl
    rw [hYeq]
    constructor
    · rw [List.length_map, hX.1]
    · intro r hr
      obtain ⟨s, hs, hsr⟩ := List.mem_map.1 hr
      obtain ⟨a, b, d, hs3⟩ := list3_decomp (hX.2 s hs)
      rw [← hsr, hs3]
      rfl
  · rw [rotation_error_of_axis hlen3] at h
    cases h

theorem permutation_some_isMat {X : Mat ℚ} {nPerm msl M N : ℕ}
    {idx : List ℕ} {draws : ℕ → List ℕ} {fuel : ℕ} {Y : Mat ℚ}
    (hX : isMat M N X) (hn : 1 ≤ nPerm)
    (hidx : List.Perm idx (List.range nPerm))
    (hlen : ∀ i, (draws i).length = nPerm - 1)
    (hbd : ∀ i, ∀ d ∈ draws i, d ≤ X.length)
    (hY : permutation X nPerm msl idx draws fuel = some Y) : isMat M N Y := by
  obtain ⟨parts, _, hpflat, _, parts2, hp2, hYeq⟩ :=
    permutation_some_spec hn hidx hlen hbd hY
  have hYX : List.Perm Y X := by
    rw [hYeq, ← hpflat]
    exact hp2.flatten
  constructor
  · rw [hYX.length_eq, hX.1]
  · intro r hr
    exact hX.2 r (hYX.mem_iff.1 hr)

theorem rand_sampling_ok_isMat {X : Mat ℚ} {nSample : ℕ}
    {draws : ℕ → List ℕ} {Y : Mat ℚ}
    (h : rand_sampling X nSample draws = Except.ok Y) :
    isMat X.length (shape1 X) Y := by
  unfold rand_sampling at h
  obtain ⟨t, _, h⟩ := except_bind_ok h
  have hYeq : Y = (List.range X.length).map fun i =>
      (List.range (shape1 X)).map fun j =>
        if j < 3 then (rsCol X t j).getD i 0 else 0 := by
    cases h
    rfl
  rw [hYeq]
  constructor
  · rw [List.length_map, List.length_range]
  · intro r hr
    obtain ⟨i, _, hir⟩ := List.mem_map.1 hr
    rw [← hir, List.length_map, List.length_range]

/-- C6: every transform of the public interface returns a matrix of the
input's shape whenever it returns a matrix at all: jitter and scaling always
do; magnitude warping, rotation and random sampling do on every success
(their preconditions: three channels); permutation does on every success of
its segment search; and time_warp never returns a matrix (it always raises —
see C9), so its shape claim holds vacuously. -/
theorem C6_shape_invariance :
    (∀ (X : Mat ℚ) (σ : ℚ) (z : ℕ → ℕ → ℚ) (M N : ℕ), isMat M N X →
      isMat M N (jitter X σ z)) ∧
    (∀ (X : Mat ℚ) (σ : ℚ) (z : ℕ → ℚ) (M N : ℕ), isMat M N X →
      isMat M N (scaling X σ z)) ∧
    (∀ (CS : List ℚ → List ℚ → ℚ → ℚ) (X : Mat ℚ) (σ : ℚ) (knot : ℕ)
      (zy : ℕ → ℕ → ℚ) (M : ℕ) (Y : Mat ℚ), isMat M 3 X →
      magnitude_warp CS X σ knot zy = Except.ok Y → isMat M 3 Y) ∧
    (∀ (CS : List ℚ → List ℚ → ℚ → ℚ) (X : Mat ℚ) (σ : ℚ) (knot : ℕ)
      (zy : ℕ → ℕ → ℚ) (Y : Mat ℚ),
      time_warp CS X σ knot zy ≠ Except.ok Y) ∧
    (∀ (X : Mat ℝ) (axis : List ℝ) (θ : ℝ) (M : ℕ) (Y : Mat ℝ), isMat M 3 X →
      rotation X axis θ = Except.ok Y → isMat M 3 Y) ∧
    (∀ (X : Mat ℚ) (nPerm msl : ℕ) (idx : List ℕ) (draws : ℕ → List ℕ)
      (fuel M N : ℕ) (Y : Mat ℚ), isMat M N X → 1 ≤ nPerm →
      List.Perm idx (List.range nPerm) →
      (∀ i, (draws i).length = nPerm - 1) →
      (∀ i, ∀ d ∈ draws i, d ≤ X.length) →
      permutation X nPerm msl idx draws fuel = some Y → isMat M N Y) ∧
    (∀ (X : Mat ℚ) (nSample : ℕ) (draws : ℕ → List ℕ) (M : ℕ) (Y : Mat ℚ),
      isMat M 3 X → 1 ≤ M →
      rand_sampling X nSample draws = Except.ok Y → isMat M 3 Y) := by
  refine ⟨?_, ?_, ?_, ?_, ?_, ?_, ?_⟩
  · intro X σ z M N hX
    exact isMat_idxMap _ (fun i r => length_idxMap _ 0 r) hX 0
  · intro X σ z M N hX
    exact isMat_idxMap _ (fun i r => length_idxMap _ 0 r) hX 0
  · intro CS X σ knot zy M Y hX h
    unfold magnitude_warp at h
    obtain ⟨c, hc, h⟩ := except_bind_ok h
    have hcM : isMat X.length 3 c := curve_ok_isMat hc
    rw [hX.1] at hcM
    exact elemMul_ok_isMat hX hcM h
  · intro CS X σ knot zy Y h
    rw [time_warp_always_error] at h
    cases h
  · intro X axis θ M Y hX h
    exact rotation_ok_isMat hX h
  · intro X nPerm msl idx draws fuel M N Y hX hn hidx hlen hbd h
    exact permutation_some_isMat hX hn hidx hlen hbd h
  · intro X nSample draws M Y hX hM h
    have := rand_sampling_ok_isMat h
    rw [hX.1, shape1_of_isMat hX hM] at this
    exact this

/-- Witness for C6: concrete instances of each conjunct on small inputs. -/
theorem C6_witness :
    isMat 1 2 (jitter [[1, 2]] 1 fun _ _ => 1) ∧
    isMat 1 2 (scaling [[1, 2]] 1 fun _ => 1) ∧
    isMat 6 3 ([[0, 0, 0], [0, 0, 0], [0, 0, 0], [0, 0, 0], [0, 0, 0],
      [0, 0, 0]] : Mat ℚ) ∧
    time_warp npCS (List.replicate 6 [0, 0, 0]) 0 4 (fun _ _ => 0) ≠
      Except.ok [] ∧
    isMat 1 3 ([[2, -1, 3]] : Mat ℝ) ∧
    isMat 5 1 ([[3], [4], [5], [1], [2]] : Mat ℚ) ∧
    isMat 3 3 ([[1, 2, 3], [4, 5, 6], [7, 8, 9]] : Mat ℚ) := by
  refine ⟨?_, ?_, ?_, ?_, ?_, ?_, ?_⟩
  · exact C6_shape_invariance.1 [[1, 2]] 1 (fun _ _ => 1) 1 2
      (by with_unfolding_all decide)
  · exact C6_shape_invariance.2.1 [[1, 2]] 1 (fun _ => 1) 1 2
      (by with_unfolding_all decide)
  · exact C6_shape_invariance.2.2.1 npCS (List.replicate 6 [0, 0, 0]) 0 4
      (fun _ _ => 0) 6 _ (by with_unfolding_all decide)
      (by with_unfolding_all decide)
  · exact C6_shape_invariance.2.2.2.1 npCS (List.replicate 6 [0, 0, 0]) 0 4
      (fun _ _ => 0) []
  · exact C6_shape_invariance.2.2.2.2.1 [[1, 2, 3]] [0, 0, 1] (Real.pi / 2) 1
      [[2, -1, 3]]
      (by
        constructor
        · rfl
        · intro r hr
          rw [List.mem_singleton.1 hr]
          rfl)
      (by
        rw [rotation_ok_of_isMat (M := 1) (by
          constructor
          · rfl
          · intro r hr
            rw [List.mem_singleton.1 hr]
            rfl) 0 0 1 (Real.pi / 2)]
        simp only [List.map_cons, List.map_nil, rotRow, Real.cos_pi_div_two,
          Real.sin_pi_div_two]
        norm_num)
  · exact C6_shape_invariance.2.2.2.2.2.1 [[1], [2], [3], [4], [5]] 2 1 [1, 0]
      (fun _ => [2]) 1 5 1 [[3], [4], [5], [1], [2]]
      (by with_unfolding_all decide) (by norm_num) (by decide) (fun _ => rfl)
      (by
        intro i d hd
        simp only [List.mem_cons, List.not_mem_nil, or_false] at hd
        subst hd
        decide)
      (by with_unfolding_all decide)
  · exact C6_shape_invariance.2.2.2.2.2.2 [[1, 2, 3], [4, 5, 6], [7, 8, 9]] 4
      (fun _ => [1, 1]) 3 _ (by with_unfolding_all decide) (by norm_num)
      (by with_unfolding_all decide)

/-! ### Claim C10 : random sampling preserves the boundary samples -/

theorem range_map_getD {β : Type} {n i : ℕ} (f : ℕ → β) (d : β) (h : i < n) :
    ((List.range n).map f).getD i d = f i := by
  apply getD_eq_of_get?
  rw [List.get?_map, List.get?_range h]
  rfl

theorem ttcol_eq (M nSample : ℕ) (draws : ℕ → List ℕ) {j : ℕ} (hj : j < 3) :
    ttcol M nSample draws j = 0 :: (npsort (draws j) ++ [M - 1]) := by
  unfold ttcol
  rw [if_pos hj]

theorem ttcol_getLast {M nSample : ℕ} {draws : ℕ → List ℕ} {j : ℕ}
    (hj : j < 3) : (ttcol M nSample draws j).getLast? = some (M - 1) := by
  rw [ttcol_eq M nSample draws hj]
  have h : (0 :: (npsort (draws j) ++ [M - 1])) =
      (0 :: npsort (draws j)) ++ [M - 1] := by simp
  rw [h, List.getLast?_concat]

theorem ttcol_bound {M nSample : ℕ} {draws : ℕ → List ℕ} {j : ℕ} (hj : j < 3)
    (hM : 3 ≤ M) (hbd : ∀ d ∈ draws j, 1 ≤ d ∧ d < M - 1) :
    ∀ i, i + 1 < (ttcol M nSample draws j).length →
      (ttcol M nSample draws j).getD i 0 < M - 1 := by
  intro i hi
  rw [ttcol_eq M nSample draws hj] at hi ⊢
  have hsplit : (0 :: (npsort (draws j) ++ [M - 1])) =
      (0 :: npsort (draws j)) ++ [M - 1] := by simp
  rw [hsplit] at hi ⊢
  have hilt : i < (0 :: npsort (draws j)).length := by
    have h2 : ((0 :: npsort (draws j)) ++ [M - 1]).length =
        (0 :: npsort (draws j)).length + 1 := by
      rw [List.length_append]
      rfl
    rw [h2] at hi
    omega
  rw [List.getD_append _ _ _ _ hilt]
  have hmem := getD_mem_of_lt 0 hilt
  rcases List.mem_cons.1 hmem with h | h
  · rw [h]
    omega
  · have := hbd _ (mem_npsort.1 h)
    omega

theorem rsCol_boundary {X : Mat ℚ} {M nSample : ℕ} {draws : ℕ → List ℕ}
    {j : ℕ} (hj : j < 3) (hXlen : X.length = M) (hM : 3 ≤ M)
    (hbd : ∀ d ∈ draws j, 1 ≤ d ∧ d < M - 1) :
    (rsCol X (ttMat M 3 nSample draws) j).getD 0 0 = entry X 0 j ∧
    (rsCol X (ttMat M 3 nSample draws) j).getD (M - 1) 0 =
      entry X (M - 1) j := by
  have htt : (ttMat M 3 nSample draws).getD j [] =
      ttcol M nSample draws j := by
    unfold ttMat
    exact range_map_getD _ [] hj
  have hlen2 : ((ttcol M nSample draws j).map fun (s : ℕ) => (s : ℚ)).length =
      ((ttcol M nSample draws j).map fun s => entry X s j).length := by
    simp
  constructor
  · unfold rsCol
    rw [htt, hXlen, range_map_getD _ 0 (by omega : 0 < M)]
    rw [interpAt_left hlen2 (by rw [ttcol_eq M nSample draws hj]; simp)
      (by rw [ttcol_eq M nSample draws hj]; simp)]
    rw [ttcol_eq M nSample draws hj]
    simp
  · unfold rsCol
    rw [htt, hXlen, range_map_getD _ 0 (by omega : M - 1 < M)]
    rw [interpAt_right hlen2
      (by rw [ttcol_eq M nSample draws hj]; simp)
      (by
        intro i hi
        rw [List.length_map] at hi
        rw [getD_map_fix (fun (s : ℕ) => (s : ℚ)) 0 0 (by norm_num)]
        have := ttcol_bound hj hM hbd i hi
        exact_mod_cast this)
      (by
        rw [List.getLast?_map, ttcol_getLast hj]
        rfl)]
    rw [List.getLast?_map, ttcol_getLast hj]
    rfl

theorem row_eq_entries {X : Mat ℚ} {M : ℕ} {i : ℕ} (hX : isMat M 3 X)
    (hi : i < M) :
    X.getD i [] = [entry X i 0, entry X i 1, entry X i 2] := by
  have hlen : (X.getD i []).length = 3 :=
    hX.2 _ (getD_mem_of_lt [] (by rw [hX.1]; exact hi))
  obtain ⟨a, b, c, h3⟩ := list3_decomp hlen
  have e0 : entry X i 0 = a := by unfold entry; rw [h3]; rfl
  have e1 : entry X i 1 = b := by unfold entry; rw [h3]; rfl
  have e2 : entry X i 2 = c := by unfold entry; rw [h3]; rfl
  rw [h3, e0, e1, e2]

/-- C10: with M ≥ 3 rows, 3 channels and nSample ≥ 2, rand_sampling returns
a matrix whose first row equals X's first row and whose last row equals X's
last row: every channel's sample-index sequence starts at 0 and ends at
M - 1, and np.interp reproduces the sampled values at those grid points. -/
theorem C10_rand_sampling_boundaries (X : Mat ℚ) (M nSample : ℕ)
    (draws : ℕ → List ℕ) (hX : isMat M 3 X) (hM : 3 ≤ M) (hn : 2 ≤ nSample)
    (hlen : ∀ j, (draws j).length = nSample - 2)
    (hbd : ∀ j, ∀ d ∈ draws j, 1 ≤ d ∧ d < M - 1) :
    ∃ Y, rand_sampling X nSample draws = Except.ok Y ∧
      Y.getD 0 [] = X.getD 0 [] ∧ Y.getD (M - 1) [] = X.getD (M - 1) [] := by
  have hsh : shape1 X = 3 := shape1_of_isMat hX (by omega)
  have hXlen : X.length = M := hX.1
  refine ⟨(List.range M).map fun i =>
    (List.range 3).map fun j =>
      if j < 3 then (rsCol X (ttMat M 3 nSample draws) j).getD i 0 else 0,
    ?_, ?_, ?_⟩
  · unfold rand_sampling rand_sample_timesteps
    rw [hsh, hXlen]
    have h1 : randintCheck M nSample = Except.ok () := by
      unfold randintCheck
      rw [if_neg (by omega)]
    rw [h1]
    rfl
  · rw [range_map_getD _ [] (by omega : 0 < M)]
    have hr3 : List.range 3 = [0, 1, 2] := rfl
    rw [hr3]
    simp only [List.map_cons, List.map_nil]
    have hif : ∀ u v w : ℚ,
        ([if 0 < 3 then u else 0, if 1 < 3 then v else 0,
          if 2 < 3 then w else 0] : List ℚ) = [u, v, w] := by
      intro u v w
      norm_num
    rw [hif]
    rw [(@rsCol_boundary X M nSample draws 0 (by norm_num) hXlen hM (hbd 0)).1,
      (@rsCol_boundary X M nSample draws 1 (by norm_num) hXlen hM (hbd 1)).1,
      (@rsCol_boundary X M nSample draws 2 (by norm_num) hXlen hM (hbd 2)).1,
      row_eq_entries hX (by omega : 0 < M)]
  · rw [range_map_getD _ [] (by omega : M - 1 < M)]
    have hr3 : List.range 3 = [0, 1, 2] := rfl
    rw [hr3]
    simp only [List.map_cons, List.map_nil]
    have hif : ∀ u v w : ℚ,
        ([if 0 < 3 then u else 0, if 1 < 3 then v else 0,
          if 2 < 3 then w else 0] : List ℚ) = [u, v, w] := by
      intro u v w
      norm_num
    rw [hif]
    rw [(@rsCol_boundary X M nSample draws 0 (by norm_num) hXlen hM (hbd 0)).2,
      (@rsCol_boundary X M nSample draws 1 (by norm_num) hXlen hM (hbd 1)).2,
      (@rsCol_boundary X M nSample draws 2 (by norm_num) hXlen hM (hbd 2)).2,
      row_eq_entries hX (by omega : M - 1 < M)]

/-- Witness for C10: a concrete 4-by-3 input, nSample = 3, interior sample
index 2 for every channel: the first and last rows come back unchanged. -/
theorem C10_witness :
    ∃ Y, rand_sampling [[1, 2, 3], [4, 5, 6], [7, 8, 9], [10, 11, 12]] 3
        (fun _ => [2]) = Except.ok Y ∧
      Y.getD 0 [] = ([[1, 2, 3], [4, 5, 6], [7, 8, 9],
        [10, 11, 12]] : Mat ℚ).getD 0 [] ∧
      Y.getD 3 [] = ([[1, 2, 3], [4, 5, 6], [7, 8, 9],
        [10, 11, 12]] : Mat ℚ).getD 3 [] :=
  C10_rand_sampling_boundaries [[1, 2, 3], [4, 5, 6], [7, 8, 9], [10, 11, 12]]
    4 3 (fun _ => [2]) (by with_unfolding_all decide) (by norm_num)
    (by norm_num) (fun _ => rfl)
    (by
      intro j d hd
      simp only [List.mem_cons, List.not_mem_nil, or_false] at hd
      subst hd
      omega)

end DataAug
